import Mathlib

/-!
Shallow embedding of the statistical core of the Hekstra-Labm (careless)
repository, together with theorems settling the frozen claims about it.

Numeric arrays are modelled as Lean lists; real-valued tensorflow math is
modelled over `ℝ`, integer id columns over `ℕ`, and exact tabular payloads
over `ℤ`.  Python exceptions are modelled with `Except`/`Option`.
-/

namespace Careless

/-! ## Wilson prior — careless/models/priors/wilson.py

The two branch densities are the ones stated in the source's own docstrings
(and asserted by tests/models/priors/test_wilson.py):
`Centric()` is a half-normal with scale 1, pdf `sqrt(2/pi) * exp(-E^2/2)`;
`Acentric()` is the Rayleigh-type density `2*E*exp(-E^2)`.
`log_prob` of a tfp distribution is the logarithm of its density. -/

noncomputable section

/-- Density of `Centric()` (tfd.HalfNormal with scale 1), from wilson.py lines 7-21. -/
def halfNormal_prob (x : ℝ) : ℝ := Real.sqrt (2 / Real.pi) * Real.exp (-(x ^ 2) / 2)

/-- Log-density of `Centric()`. -/
def halfNormal_log_prob (x : ℝ) : ℝ := Real.log (halfNormal_prob x)

/-- Density of `Acentric()` (scaled Chi(2), i.e. Rayleigh), from wilson.py lines 23-48. -/
def rayleigh_prob (x : ℝ) : ℝ := 2 * x * Real.exp (-(x ^ 2))

/-- Log-density of `Acentric()`. -/
def rayleigh_log_prob (x : ℝ) : ℝ := Real.log (rayleigh_prob x)

/-- State held by `WilsonPrior.__init__` (wilson.py lines 52-64): the centric
indicator vector and the multiplicity (epsilon) vector. -/
structure WilsonPrior where
  centric : List ℝ
  epsilon : List ℝ

/-- wilson.py lines 66-73: `log_prob` combines the two branch log-densities
elementwise, weighted by the centric indicator.  The source reads `x` directly;
`self.epsilon` is not used anywhere in this method. -/
def WilsonPrior.log_prob (P : WilsonPrior) (x : List ℝ) : List ℝ :=
  List.zipWith (fun c xi => c * halfNormal_log_prob xi + (1 - c) * rayleigh_log_prob xi)
    P.centric x

/-- wilson.py lines 75-83: `prob` first rebinds `x = x / self.epsilon`
(elementwise) and then combines the two branch densities elementwise on the
rebound value, weighted by the centric indicator. -/
def WilsonPrior.prob (P : WilsonPrior) (x : List ℝ) : List ℝ :=
  let xr := List.zipWith (fun xi e => xi / e) x P.epsilon
  List.zipWith (fun c xi => c * halfNormal_prob xi + (1 - c) * rayleigh_prob xi)
    P.centric xr

/-- The per-element evaluation claimed by the specification for `prob`:
rescale by epsilon before the acentric branch only, leaving the centric
half-normal branch on the unrescaled amplitude. -/
def wilsonProbClaimed (c e x : ℝ) : ℝ :=
  c * halfNormal_prob x + (1 - c) * rayleigh_prob (x / e)

/-- The per-element evaluation claimed by the specification for `log_prob`:
identical rescaling structure to `wilsonProbClaimed`. -/
def wilsonLogProbClaimed (c e x : ℝ) : ℝ :=
  c * halfNormal_log_prob x + (1 - c) * rayleigh_log_prob (x / e)

end

/-- Helper: `getD` of a `zipWith` at an in-bounds index. -/
theorem zipWith_getD (f : ℝ → ℝ → ℝ) :
    ∀ (as bs : List ℝ) (i : ℕ), i < as.length → i < bs.length →
      (List.zipWith f as bs).getD i 0 = f (as.getD i 0) (bs.getD i 0) := by
  intro as
  induction as with
  | nil => intro bs i h _; simp at h
  | cons a at' ih =>
    intro bs i h1 h2
    cases bs with
    | nil => simp at h2
    | cons b bt =>
      cases i with
      | zero => simp
      | succ j =>
        simp only [List.zipWith_cons_cons, List.getD_cons_succ]
        exact ih bt j (Nat.lt_of_succ_lt_succ h1) (Nat.lt_of_succ_lt_succ h2)

theorem sqrt_two_div_pi_pos : 0 < Real.sqrt (2 / Real.pi) := by
  have : (0:ℝ) < 2 / Real.pi := by positivity
  exact Real.sqrt_pos.mpr this

theorem halfNormal_prob_one_ne_two : halfNormal_prob 1 ≠ halfNormal_prob 2 := by
  unfold halfNormal_prob
  intro h
  have hs : (0:ℝ) < Real.sqrt (2 / Real.pi) := sqrt_two_div_pi_pos
  have hexp : Real.exp (-((1:ℝ) ^ 2) / 2) = Real.exp (-((2:ℝ) ^ 2) / 2) :=
    mul_left_cancel₀ (ne_of_gt hs) h
  have := Real.exp_injective hexp
  norm_num at this

theorem halfNormal_log_prob_closed (x : ℝ) :
    halfNormal_log_prob x = Real.log (Real.sqrt (2 / Real.pi)) + -(x ^ 2) / 2 := by
  unfold halfNormal_log_prob halfNormal_prob
  rw [Real.log_mul (ne_of_gt sqrt_two_div_pi_pos) (Real.exp_ne_zero _), Real.log_exp]

theorem rayleigh_log_prob_two : rayleigh_log_prob 2 = Real.log 4 + -4 := by
  unfold rayleigh_log_prob rayleigh_prob
  rw [show (2:ℝ) * 2 * Real.exp (-(2 ^ 2)) = 4 * Real.exp (-4) by norm_num]
  rw [Real.log_mul (by norm_num) (Real.exp_ne_zero _), Real.log_exp]

theorem rayleigh_log_prob_one : rayleigh_log_prob 1 = Real.log 2 + -1 := by
  unfold rayleigh_log_prob rayleigh_prob
  rw [show (2:ℝ) * 1 * Real.exp (-(1 ^ 2)) = 2 * Real.exp (-1) by norm_num]
  rw [Real.log_mul (by norm_num) (Real.exp_ne_zero _), Real.log_exp]

theorem rayleigh_log_prob_two_ne_one : rayleigh_log_prob 2 ≠ rayleigh_log_prob 1 := by
  rw [rayleigh_log_prob_two, rayleigh_log_prob_one]
  intro h
  have h4 : Real.log 4 = 2 * Real.log 2 := by
    rw [show (4:ℝ) = 2 ^ 2 by norm_num, Real.log_pow]
    push_cast
    ring
  have hlt : Real.log 2 < 0.6931471808 := Real.log_two_lt_d9
  rw [h4] at h
  linarith

/-- C1 counterexample: the claim's evaluation order (rescale by epsilon only for
the acentric branch, identically in `prob` and `log_prob`) disagrees with the
code.  At centric flag 1, epsilon 2, amplitude 2, `prob` evaluates the centric
half-normal branch at the rescaled amplitude 2/2 = 1, not at the unrescaled 2;
and at centric flag 0, epsilon 2, amplitude 2, `log_prob` evaluates the
acentric branch at the raw amplitude 2, not at the rescaled 1. -/
theorem wilson_rescaling_claim_counterexample :
    (WilsonPrior.mk [(1:ℝ)] [2]).prob [2] ≠ [wilsonProbClaimed 1 2 2] ∧
    (WilsonPrior.mk [(0:ℝ)] [2]).log_prob [2] ≠ [wilsonLogProbClaimed 0 2 2] := by
  constructor
  · simp only [WilsonPrior.prob, wilsonProbClaimed, List.zipWith, ne_eq, List.cons.injEq,
      and_true]
    norm_num
    exact halfNormal_prob_one_ne_two
  · simp only [WilsonPrior.log_prob, wilsonLogProbClaimed, List.zipWith, ne_eq,
      List.cons.injEq, and_true]
    norm_num
    exact rayleigh_log_prob_two_ne_one

/-- C1 (amended): elementwise, `WilsonPrior.prob` rescales the input amplitude
by the reflection's multiplicity epsilon before evaluating BOTH the centric and
the acentric branch density, while `WilsonPrior.log_prob` evaluates both
branches on the unrescaled amplitude and never reads epsilon. -/
theorem wilson_epsilon_rescaling (P : WilsonPrior) (x : List ℝ) (i : ℕ)
    (hc : P.centric.length = x.length) (he : P.epsilon.length = x.length)
    (hi : i < x.length) :
    (P.prob x).getD i 0 =
      P.centric.getD i 0 * halfNormal_prob (x.getD i 0 / P.epsilon.getD i 0)
      + (1 - P.centric.getD i 0) * rayleigh_prob (x.getD i 0 / P.epsilon.getD i 0)
    ∧ (P.log_prob x).getD i 0 =
      P.centric.getD i 0 * halfNormal_log_prob (x.getD i 0)
      + (1 - P.centric.getD i 0) * rayleigh_log_prob (x.getD i 0) := by
  have hxr : (List.zipWith (fun xi e => xi / e) x P.epsilon).length = x.length := by
    rw [List.length_zipWith, he, min_self]
  constructor
  · unfold WilsonPrior.prob
    rw [zipWith_getD _ _ _ i (by rw [hc]; exact hi) (by rw [hxr]; exact hi)]
    rw [zipWith_getD _ _ _ i hi (by rw [he]; exact hi)]
  · unfold WilsonPrior.log_prob
    rw [zipWith_getD _ _ _ i (by rw [hc]; exact hi) hi]

/-- Witness for `wilson_epsilon_rescaling` at centric 1, epsilon 2, amplitude 4. -/
theorem wilson_epsilon_rescaling_witness :
    ((WilsonPrior.mk [(1:ℝ)] [2]).centric.length = [(4:ℝ)].length) ∧
    ((WilsonPrior.mk [(1:ℝ)] [2]).epsilon.length = [(4:ℝ)].length) ∧
    (0 < [(4:ℝ)].length) ∧
    (((WilsonPrior.mk [(1:ℝ)] [2]).prob [4]).getD 0 0 =
      (WilsonPrior.mk [(1:ℝ)] [2]).centric.getD 0 0
        * halfNormal_prob ([(4:ℝ)].getD 0 0 / (WilsonPrior.mk [(1:ℝ)] [2]).epsilon.getD 0 0)
      + (1 - (WilsonPrior.mk [(1:ℝ)] [2]).centric.getD 0 0)
        * rayleigh_prob ([(4:ℝ)].getD 0 0 / (WilsonPrior.mk [(1:ℝ)] [2]).epsilon.getD 0 0)
    ∧ ((WilsonPrior.mk [(1:ℝ)] [2]).log_prob [4]).getD 0 0 =
      (WilsonPrior.mk [(1:ℝ)] [2]).centric.getD 0 0
        * halfNormal_log_prob ([(4:ℝ)].getD 0 0)
      + (1 - (WilsonPrior.mk [(1:ℝ)] [2]).centric.getD 0 0)
        * rayleigh_log_prob ([(4:ℝ)].getD 0 0)) :=
  ⟨rfl, rfl, by norm_num,
    wilson_epsilon_rescaling (WilsonPrior.mk [1] [2]) [4] 0 rfl rfl (by norm_num)⟩

/-- C3: the code's `log_prob` is NOT the elementwise logarithm of the code's
`prob`.  At centric flag 1, epsilon 2, amplitude 2 (a positive amplitude),
`log_prob` returns `log(halfNormal_prob 2)` while `log(prob)` returns
`log(halfNormal_prob 1)` because `prob` (and only `prob`) divides the input by
epsilon; these differ. -/
theorem wilson_log_prob_ne_log_of_prob :
    (WilsonPrior.mk [(1:ℝ)] [2]).log_prob [2] ≠
      ((WilsonPrior.mk [(1:ℝ)] [2]).prob [2]).map Real.log := by
  simp only [WilsonPrior.log_prob, WilsonPrior.prob, List.zipWith, List.map_cons,
    List.map_nil, ne_eq, List.cons.injEq, and_true]
  norm_num
  rw [halfNormal_log_prob_closed]
  intro h
  have h1 : Real.log (halfNormal_prob 1) =
      Real.log (Real.sqrt (2 / Real.pi)) + -((1:ℝ) ^ 2) / 2 := by
    rw [← halfNormal_log_prob_closed]
    rfl
  rw [h1] at h
  norm_num at h

/-! ## Laue likelihood — careless/models/likelihoods/laue.py

`harmonic_id` is the per-harmonic observation index (one row per predicted
harmonic), `nobs` the number of observations.  The sparse incidence tensor has
one entry of value 1 at position `(harmonic_id[h], h)` for each harmonic `h`
and dense shape `(nobs, npred)`. -/

/-- The value of `tf.SparseTensor(idx, tf.ones(npred), dense_shape)` built on
laue.py lines 15-17: the index list plus the dense shape. -/
structure SparseConvTensor where
  idx : List (ℕ × ℕ)
  dense_shape : ℕ × ℕ
deriving DecidableEq

/-- Lines 14-17 of laue.py, given an observation count `n`. -/
def mkSparseConvTensor (harmonic_id : List ℕ) (n : ℕ) : SparseConvTensor :=
  { idx := (List.range harmonic_id.length).map (fun h => (harmonic_id.getD h 0, h)),
    dense_shape := (n, harmonic_id.length) }

/-- The names bound at module scope of laue.py: the seven imported names and
the four classes defined in the module.  No module-level variable named
`intensities` exists. -/
def laueModuleNames : List String :=
  ["Likelihood", "PerGroupModel", "tfd", "tfb", "tfp", "tf", "np",
   "LaueBase", "NormalLikelihood", "LaplaceLikelihood", "StudentTLikelihood"]

/-- The module-global environment of laue.py restricted to array values: no
module-level name is bound to an array at all (every module-scope binding is a
module or a class), so every array-valued global lookup fails. -/
def laueModuleEnv : String → Option (List ℤ) := fun _ => none

/-- laue.py lines 12-18, `LaueBase.get_sparse_conv_tensor(harmonic_id, nobs)`.
Line 13 reads `nobs = intensities.shape[0]`: the name `intensities` is never
assigned in the function body, so Python resolves it against the module
globals `env`; when that lookup fails the statement raises `NameError`.  Note
the `nobs` parameter is overwritten by line 13 before any use. -/
def get_sparse_conv_tensor (env : String → Option (List ℤ))
    (harmonic_id : List ℕ) (nobs : ℕ) : Except String SparseConvTensor :=
  match env "intensities" with
  | none => Except.error "NameError: name 'intensities' is not defined"
  | some intens => Except.ok (mkSparseConvTensor harmonic_id intens.length)

/-- `tf.sparse.sparse_dense_matmul(sparse_conv_tensor, value, adjoint_b=True)`
on laue.py line 41: the `(nobs, npred)` incidence matrix (entry `(i, h)` is 1
when `harmonic_id[h] = i`, else 0) multiplied by the transposed prediction
vector, giving one entry per observation. -/
def sparse_dense_matmul (harmonic_id : List ℕ) (n : ℕ) (value : List ℤ) : List ℤ :=
  (List.range n).map (fun i =>
    ((List.range harmonic_id.length).map
      (fun h => (if harmonic_id.getD h n = i then (1:ℤ) else 0) * value.getD h 0)).sum)

/-- State captured by the `ConvolvedLikelihood` object of laue.py lines 32-52:
the sparse incidence tensor (represented by the data it was built from) and
the location-scale distribution, represented by its log-density on the
aggregate predictions. -/
structure ConvolvedLikelihood where
  harmonic_id : List ℕ
  nobs : ℕ
  distLogProb : List ℤ → List ℤ

/-- laue.py lines 40-41: the body of `convolve` evaluates the sparse-dense
matrix product as a bare expression statement and ends without a `return`
statement, so the Python call returns `None` (modelled as `Option.none`). -/
def ConvolvedLikelihood.convolve (L : ConvolvedLikelihood) (value : List ℤ) :
    Option (List ℤ) :=
  let _rowSums := sparse_dense_matmul L.harmonic_id L.nobs value
  none

/-- laue.py lines 49-50: `log_prob` feeds `convolve`'s result into the
distribution's log-density. -/
def ConvolvedLikelihood.log_prob (L : ConvolvedLikelihood) (value : List ℤ) :
    Option (List ℤ) :=
  (L.convolve value).map L.distLogProb

theorem sum_ite_eq_sum_filter (P : ℕ → Prop) [DecidablePred P] (f : ℕ → ℤ) :
    ∀ l : List ℕ,
      ((l.map (fun h => (if P h then (1:ℤ) else 0) * f h)).sum =
        ((l.filter (fun h => decide (P h))).map f).sum) := by
  intro l
  induction l with
  | nil => simp
  | cons a t ih =>
    by_cases hpa : P a
    · simp only [List.map_cons, List.sum_cons, List.filter_cons, hpa, if_pos,
        decide_eq_true_eq, ite_true, one_mul, ih, decide_eq_true hpa]
    · simp only [List.map_cons, List.sum_cons, List.filter_cons,
        decide_eq_false hpa, ite_false, if_neg hpa, zero_mul, zero_add, ih,
        Bool.false_eq_true]

/-- C4: on the actual module environment of laue.py, every call of
`get_sparse_conv_tensor` raises `NameError` over the unbound name
`intensities` (first conjunct); the result never depends on the `nobs`
parameter, which is overwritten before use (second conjunct); and indeed no
module-scope binding named `intensities` exists (third conjunct). -/
theorem get_sparse_conv_tensor_always_raises :
    (∀ (harmonic_id : List ℕ) (nobs : ℕ),
      get_sparse_conv_tensor laueModuleEnv harmonic_id nobs =
        Except.error "NameError: name 'intensities' is not defined") ∧
    (∀ (env : String → Option (List ℤ)) (harmonic_id : List ℕ) (n n' : ℕ),
      get_sparse_conv_tensor env harmonic_id n =
        get_sparse_conv_tensor env harmonic_id n') ∧
    "intensities" ∉ laueModuleNames := by
  refine ⟨fun harmonic_id nobs => rfl, fun env harmonic_id n n' => ?_, by decide⟩
  unfold get_sparse_conv_tensor
  cases env "intensities" <;> rfl

/-- C2: the Laue convolution is broken in the code.  On the sparse tensor for
harmonics `[0, 0, 1]` over 2 observations with predictions `[1, 2, 5]`:
(1) the discarded matrix product equals the per-observation exact sums
`[1+2, 5] = [3, 5]`; (2) in general every entry of the product is the exact
sum (not the mean) of the predictions of the harmonics assigned to that
observation; but (3) `convolve` returns Python `None` because its body lacks a
`return` statement, so (4) `log_prob` never evaluates the density at the
aggregate. -/
theorem convolve_returns_none :
    sparse_dense_matmul [0, 0, 1] 2 [1, 2, 5] = [3, 5] ∧
    (∀ (harmonic_id : List ℕ) (n : ℕ) (value : List ℤ),
      sparse_dense_matmul harmonic_id n value =
        (List.range n).map (fun i =>
          (((List.range harmonic_id.length).filter
              (fun h => harmonic_id.getD h n = i)).map
            (fun h => value.getD h 0)).sum)) ∧
    (ConvolvedLikelihood.mk [0, 0, 1] 2 id).convolve [1, 2, 5] = none ∧
    (ConvolvedLikelihood.mk [0, 0, 1] 2 id).log_prob [1, 2, 5] = none := by
  refine ⟨by decide, fun harmonic_id n value => ?_, rfl, rfl⟩
  unfold sparse_dense_matmul
  refine List.map_congr_left (fun i _ => ?_)
  exact sum_ite_eq_sum_filter (fun h => harmonic_id.getD h n = i)
    (fun h => value.getD h 0) (List.range harmonic_id.length)

/-! ## Metadata standardization — careless/merge/merge.py

`BaseMerger.add_scaling_model` (lines 186-202) standardizes the selected
metadata columns with `(metadata - metadata.mean(0)) / metadata.std(0)`.
numpy float semantics for the division: dividing a nonzero value by zero gives
a signed infinity, and `0.0 / 0.0` gives NaN.  We model one metadata column;
`mean` is the arithmetic mean and `std` the population standard deviation
(`numpy.std` with its default `ddof=0`), exactly as numpy computes them. -/

/-- A numpy floating-point value: finite, NaN, or a signed infinity. -/
inductive NpFloat where
  | finite (x : ℝ)
  | nan
  | posinf
  | neginf

/-- Whether a numpy float value is finite (what `np.isfinite` tests). -/
def NpFloat.isFinite : NpFloat → Bool
  | NpFloat.finite _ => true
  | _ => false

noncomputable section

/-- numpy division of floats (here with finite operands): division by zero
yields NaN for a zero numerator and a signed infinity otherwise. -/
def npDiv (a b : ℝ) : NpFloat :=
  if b = 0 then (if a = 0 then NpFloat.nan else if 0 < a then NpFloat.posinf else NpFloat.neginf)
  else NpFloat.finite (a / b)

/-- `metadata.mean(0)` for one column. -/
def colMean (col : List ℝ) : ℝ := col.sum / col.length

/-- `metadata.std(0)` for one column: the square root of the mean squared
deviation from the column mean. -/
def colStd (col : List ℝ) : ℝ :=
  Real.sqrt (((col.map (fun x => (x - colMean col) ^ 2)).sum) / col.length)

/-- merge.py line 200 restricted to one metadata column:
`(metadata - metadata.mean(0)) / metadata.std(0)`. -/
def standardizeColumn (col : List ℝ) : List NpFloat :=
  col.map (fun x => npDiv (x - colMean col) (colStd col))

end

/-- C5: `add_scaling_model` does NOT guard the standardization against a
zero-variance metadata column.  For the constant column `[1, 1]` the column
mean is 1 and the column standard deviation is 0, so every standardized entry
is the numpy quotient `0.0 / 0.0 = NaN`: the standardized metadata is not
finite, contrary to the claim. -/
theorem standardize_constant_column_is_nan :
    standardizeColumn [1, 1] = [NpFloat.nan, NpFloat.nan] ∧
    (standardizeColumn [1, 1]).all NpFloat.isFinite = false := by
  have hmean : colMean [1, 1] = 1 := by
    unfold colMean
    norm_num
  have hstd : colStd [1, 1] = 0 := by
    unfold colStd
    rw [hmean]
    norm_num
  have hdiv : npDiv ((1:ℝ) - 1) 0 = NpFloat.nan := by
    unfold npDiv
    norm_num
  have h : standardizeColumn [1, 1] = [NpFloat.nan, NpFloat.nan] := by
    unfold standardizeColumn
    rw [hmean, hstd]
    simp only [List.map_cons, List.map_nil, hdiv]
  refine ⟨h, ?_⟩
  rw [h]
  rfl

/-! ## Data manager — careless/io/manager.py

The `inputs` tuple of `DataManager` is an ordered tuple of per-observation
arrays.  Each entry is modelled with the name that the (external) `BaseModel`
accessors attach to its position; integer id columns are modelled by their
flattened view, float payload matrices as lists of rows over `ℤ` (every float
literal these claims touch is integral). -/

/-- One entry of the `inputs` tuple: an integer id column or a payload matrix. -/
inductive Col where
  | ints (v : List ℕ)
  | mat (v : List (List ℤ))
deriving DecidableEq

/-- The `inputs` tuple, each entry tagged with its `get_name_by_index` name. -/
abbrev Inputs := List (String × Col)

/-- Modelled from the spec: `careless.models.base.BaseModel` (declared in
careless/models/base.py, which is not under src/) supplies accessors over the
canonicalized observation table of spec section 6; `get_harmonic_id`,
`get_image_id` and friends return the column of the given name, and
`get_name_by_index i` is the name of the i-th entry of the inputs tuple
(already carried by our entries). -/
def getIntCol (inp : Inputs) (name : String) : List ℕ :=
  match inp.find? (fun p => p.1 = name) with
  | some (_, Col.ints v) => v
  | _ => []

/-- Modelled from the spec: `BaseModel.get_harmonic_id` returns the
harmonic/observation group id column. -/
def getHarmonicId (inp : Inputs) : List ℕ := getIntCol inp "harmonic_id"

/-- Modelled from the spec: `BaseModel.get_image_id` returns the image id
column. -/
def getImageId (inp : Inputs) : List ℕ := getIntCol inp "image_id"

/-- Modelled from the spec: `BaseModel.is_laue` recognizes Laue inputs, those
carrying a harmonic_id entry (spec section 3, Harmonic group). -/
def isLaue (inp : Inputs) : Bool :=
  (inp.find? (fun p => p.1 = "harmonic_id")).isSome

/-- numpy boolean-mask row selection `v[idx]`. -/
def boolSlice {α : Type} (v : List α) (idx : List Bool) : List α :=
  (v.zip idx).filterMap (fun p => if p.2 then some p.1 else none)

/-- `idx` negation `~idx`. -/
def negMask (idx : List Bool) : List Bool := idx.map (fun b => !b)

/-- Sorted duplicate-free insertion, the building block of `np.unique`. -/
def insertSorted (x : ℕ) : List ℕ → List ℕ
  | [] => [x]
  | y :: t => if x < y then x :: y :: t else if x = y then y :: t else y :: insertSorted x t

/-- `np.unique(a)`: the sorted list of the distinct values of `a`. -/
def sortedUnique (l : List ℕ) : List ℕ := l.foldr insertSorted []

/-- The `return_inverse` companion of `np.unique`: the position of `g` in the
sorted unique list `u`. -/
def rankIn : List ℕ → ℕ → ℕ
  | [], _ => 0
  | y :: t, g => if g = y then 0 else rankIn t g + 1

/-- Boolean-mask slicing of either kind of column. -/
def colSlice (c : Col) (idx : List Bool) : Col :=
  match c with
  | Col.ints v => Col.ints (boolSlice v idx)
  | Col.mat v => Col.mat (boolSlice v idx)

/-- The inner `split` helper of `DataManager.split_laue_data_by_mask`
(manager.py lines 251-266), applied to the entry named `name`: the
intensities/uncertainties entries are reduced to the rows indexed by the
unique retained group ids (`v[uni]`) and padded with rows of the constant 1.0
up to the partition's number of harmonic rows (`np.pad` with
`constant_values=1.`); the harmonic_id entry becomes the inverse indices
(`inv[:,None]`); every other entry is sliced row-wise by the mask. -/
def splitEntry (hid : List ℕ) (idx : List Bool) (name : String) (c : Col) : Col :=
  let sel := boolSlice hid idx
  let uni := sortedUnique sel
  let inv := sel.map (rankIn uni)
  if name = "intensities" ∨ name = "uncertainties" then
    match c with
    | Col.mat v =>
        Col.mat (uni.map (fun g => v.getD g []) ++
          List.replicate (inv.length - uni.length) (List.replicate (v.headD []).length 1))
    | Col.ints v =>
        Col.ints (uni.map (fun g => v.getD g 0) ++
          List.replicate (inv.length - uni.length) 1)
  else if name = "harmonic_id" then Col.ints inv
  else colSlice c idx

/-- One partition produced by the inner `split` helper: every entry of the
inputs tuple rebuilt by `splitEntry` for the given row mask. -/
def splitPart (inp : Inputs) (idx : List Bool) : Inputs :=
  inp.map (fun p => (p.1, splitEntry (getHarmonicId inp) idx p.1 p.2))

/-- manager.py lines 224-268, `DataManager.split_laue_data_by_mask(test_idx)`:
first the validity check — `np.intersect1d` of the group ids selected by the
mask and by its negation; a nonempty intersection raises `ValueError` — then
the two partitions `split(inputs, ~test_idx), split(inputs, test_idx)`. -/
def split_laue_data_by_mask (inp : Inputs) (test_idx : List Bool) :
    Except String (Inputs × Inputs) :=
  let hid := getHarmonicId inp
  let isect := (sortedUnique (boolSlice hid test_idx)).filter
      (fun g => decide (g ∈ boolSlice hid (negMask test_idx)))
  if 0 < isect.length then
    Except.error "ValueError: test_idx splits harmonic observations"
  else
    Except.ok (splitPart inp (negMask test_idx), splitPart inp test_idx)

/-- manager.py lines 178-196, `DataManager.split_mono_data_by_mask(test_idx)`:
slice every entry row-wise, the negated mask giving the train partition. -/
def split_mono_data_by_mask (inp : Inputs) (test_idx : List Bool) :
    Inputs × Inputs :=
  (inp.map (fun p => (p.1, colSlice p.2 (negMask test_idx))),
   inp.map (fun p => (p.1, colSlice p.2 test_idx)))

/-- manager.py lines 198-222, `DataManager.split_data_by_refl(test_fraction)`.
`r` models the vector of per-group Bernoulli draws
`np.random.random(harmonic_id.max()+1) <= test_fraction` and `rowMask` the
per-row draws of the mono branch. In the Laue branch the per-row mask is the
gather `r[harmonic_id]`. -/
def split_data_by_refl (inp : Inputs) (r : List Bool) (rowMask : List Bool) :
    Except String (Inputs × Inputs) :=
  if isLaue inp then
    split_laue_data_by_mask inp ((getHarmonicId inp).map (fun g => r.getD g false))
  else
    Except.ok (split_mono_data_by_mask inp rowMask)

/-- manager.py lines 290-293: the low-image-count edge-case fix applied to the
per-image draw vector. -/
def fixMask (r : List Bool) : List Bool :=
  if true ∉ r then r.set 0 true
  else if false ∉ r then r.set 0 false
  else r

/-- manager.py lines 270-302, `DataManager.split_data_by_image(test_fraction)`.
`r` models the per-image draws `np.random.random(image_id.max()+1) <=
test_fraction`; after the edge-case fix the mask is gathered per row along the
image id column, and the Laue or mono splitter is applied. -/
def split_data_by_image (inp : Inputs) (r : List Bool) :
    Except String (Inputs × Inputs) :=
  let iid := getImageId inp
  let test_idx := iid.map (fun g => (fixMask r).getD g false)
  if isLaue inp then split_laue_data_by_mask inp test_idx
  else Except.ok (split_mono_data_by_mask inp test_idx)

/-! ### List helper lemmas -/

theorem map_getD {α β : Type} (f : α → β) (l : List α) (i : ℕ) (d : β) (d' : α)
    (h : i < l.length) : (l.map f).getD i d = f (l.getD i d') := by
  rw [List.getD_eq_getElem _ _ (by simpa using h), List.getD_eq_getElem _ _ h,
    List.getElem_map]

theorem getD_mem {α : Type} {l : List α} {i : ℕ} (d : α) (h : i < l.length) :
    l.getD i d ∈ l := by
  rw [List.getD_eq_getElem _ _ h]
  exact List.getElem_mem h

theorem mem_getD {α : Type} {l : List α} {x : α} (d : α) (h : x ∈ l) :
    ∃ i, i < l.length ∧ l.getD i d = x := by
  obtain ⟨i, hi, hx⟩ := List.mem_iff_getElem.mp h
  exact ⟨i, hi, by rw [List.getD_eq_getElem _ _ hi]; exact hx⟩

theorem boolSlice_nil {α : Type} (idx : List Bool) : boolSlice ([] : List α) idx = [] := by
  simp [boolSlice]

theorem boolSlice_cons {α : Type} (x : α) (xs : List α) (b : Bool) (bs : List Bool) :
    boolSlice (x :: xs) (b :: bs) = if b then x :: boolSlice xs bs else boolSlice xs bs := by
  cases b <;> simp [boolSlice, List.filterMap_cons]

theorem mem_boolSlice_map (f : ℕ → Bool) :
    ∀ (l : List ℕ) (g : ℕ), g ∈ boolSlice l (l.map f) → f g = true := by
  intro l
  induction l with
  | nil => intro g hg; simp [boolSlice] at hg
  | cons x t ih =>
    intro g hg
    rw [List.map_cons, boolSlice_cons] at hg
    by_cases hfx : f x = true
    · rw [if_pos hfx] at hg
      rcases List.mem_cons.mp hg with h | h
      · rw [h]; exact hfx
      · exact ih g h
    · rw [if_neg hfx] at hg
      exact ih g hg

theorem negMask_map (f : ℕ → Bool) (l : List ℕ) :
    negMask (l.map f) = l.map (fun x => !(f x)) := by
  simp [negMask, List.map_map, Function.comp]

theorem sortedUnique_cons (x : ℕ) (t : List ℕ) :
    sortedUnique (x :: t) = insertSorted x (sortedUnique t) := rfl

theorem mem_insertSorted {a x : ℕ} : ∀ {l : List ℕ}, a ∈ insertSorted x l ↔ a = x ∨ a ∈ l := by
  intro l
  induction l with
  | nil => simp [insertSorted]
  | cons y t ih =>
    unfold insertSorted
    by_cases h1 : x < y
    · rw [if_pos h1]
      simp [List.mem_cons]
    · rw [if_neg h1]
      by_cases h2 : x = y
      · rw [if_pos h2, h2]
        simp [List.mem_cons]
      · rw [if_neg h2]
        simp [List.mem_cons, ih]
        tauto

theorem pairwise_insertSorted {x : ℕ} :
    ∀ {l : List ℕ}, l.Pairwise (· < ·) → (insertSorted x l).Pairwise (· < ·) := by
  intro l
  induction l with
  | nil => intro _; simp [insertSorted]
  | cons y t ih =>
    intro hp
    rw [List.pairwise_cons] at hp
    unfold insertSorted
    by_cases h1 : x < y
    · rw [if_pos h1, List.pairwise_cons]
      refine ⟨?_, List.pairwise_cons.mpr hp⟩
      intro b hb
      rcases List.mem_cons.mp hb with h | h
      · rw [h]; exact h1
      · exact lt_trans h1 (hp.1 b h)
    · rw [if_neg h1]
      by_cases h2 : x = y
      · rw [if_pos h2]
        exact List.pairwise_cons.mpr hp
      · rw [if_neg h2, List.pairwise_cons]
        refine ⟨?_, ih hp.2⟩
        intro b hb
        rcases mem_insertSorted.mp hb with h | h
        · rw [h]
          exact lt_of_le_of_ne (Nat.le_of_not_lt h1) (fun e => h2 e.symm)
        · exact hp.1 b h

theorem mem_sortedUnique {a : ℕ} : ∀ {l : List ℕ}, a ∈ sortedUnique l ↔ a ∈ l := by
  intro l
  induction l with
  | nil => simp [sortedUnique]
  | cons x t ih =>
    rw [sortedUnique_cons, mem_insertSorted, ih, List.mem_cons]

theorem pairwise_sortedUnique : ∀ (l : List ℕ), (sortedUnique l).Pairwise (· < ·) := by
  intro l
  induction l with
  | nil => simp [sortedUnique]
  | cons x t ih =>
    rw [sortedUnique_cons]
    exact pairwise_insertSorted ih

theorem nodup_sortedUnique (l : List ℕ) : (sortedUnique l).Nodup :=
  (pairwise_sortedUnique l).imp Nat.ne_of_lt

theorem length_insertSorted (x : ℕ) :
    ∀ (l : List ℕ), (insertSorted x l).length ≤ l.length + 1 := by
  intro l
  induction l with
  | nil => simp [insertSorted]
  | cons y t ih =>
    unfold insertSorted
    by_cases h1 : x < y
    · rw [if_pos h1]; simp
    · rw [if_neg h1]
      by_cases h2 : x = y
      · rw [if_pos h2]; simp
      · rw [if_neg h2]
        simpa using Nat.succ_le_succ ih

theorem length_sortedUnique : ∀ (l : List ℕ), (sortedUnique l).length ≤ l.length := by
  intro l
  induction l with
  | nil => simp [sortedUnique]
  | cons x t ih =>
    rw [sortedUnique_cons]
    exact le_trans (length_insertSorted x (sortedUnique t)) (Nat.succ_le_succ ih)

theorem rankIn_lt_length {g : ℕ} : ∀ {u : List ℕ}, g ∈ u → rankIn u g < u.length := by
  intro u
  induction u with
  | nil => intro h; simp at h
  | cons y t ih =>
    intro h
    by_cases hgy : g = y
    · simp [rankIn, hgy]
    · have hgt : g ∈ t := by
        rcases List.mem_cons.mp h with h' | h'
        · exact absurd h' hgy
        · exact h'
      simp only [rankIn, if_neg hgy, List.length_cons]
      exact Nat.succ_lt_succ (ih hgt)

theorem rankIn_getD : ∀ {u : List ℕ}, u.Nodup → ∀ k, k < u.length → rankIn u (u.getD k 0) = k := by
  intro u
  induction u with
  | nil => intro _ k hk; simp at hk
  | cons y t ih =>
    intro hnd k hk
    rcases List.nodup_cons.mp hnd with ⟨hy, hnd'⟩
    cases k with
    | zero => simp [rankIn]
    | succ j =>
      have hj : j < t.length := Nat.lt_of_succ_lt_succ hk
      have hne : t.getD j 0 ≠ y := fun e => hy (e ▸ getD_mem 0 hj)
      simp only [List.getD_cons_succ, rankIn, if_neg hne]
      rw [ih hnd' j hj]

theorem rankIn_lt_iff :
    ∀ {u : List ℕ}, u.Pairwise (· < ·) → ∀ {a b : ℕ}, a ∈ u → b ∈ u →
      (rankIn u a < rankIn u b ↔ a < b) := by
  intro u
  induction u with
  | nil => intro _ a b ha; simp at ha
  | cons y t ih =>
    intro hp a b ha hb
    rw [List.pairwise_cons] at hp
    by_cases hay : a = y <;> by_cases hby : b = y
    · simp [rankIn, hay, hby]
    · have hbt : b ∈ t := by
        rcases List.mem_cons.mp hb with h | h
        · exact absurd h hby
        · exact h
      have : y < b := hp.1 b hbt
      simp [rankIn, hay, hby, this]
    · have hat : a ∈ t := by
        rcases List.mem_cons.mp ha with h | h
        · exact absurd h hay
        · exact h
      have hya : y < a := hp.1 a hat
      simp [rankIn, hay, hby]
      omega
    · have hat : a ∈ t := by
        rcases List.mem_cons.mp ha with h | h
        · exact absurd h hay
        · exact h
      have hbt : b ∈ t := by
        rcases List.mem_cons.mp hb with h | h
        · exact absurd h hby
        · exact h
      simp only [rankIn, if_neg hay, if_neg hby, Nat.succ_lt_succ_iff]
      exact ih hp.2 hat hbt

theorem rankIn_eq_iff {u : List ℕ} (hp : u.Pairwise (· < ·)) {a b : ℕ}
    (ha : a ∈ u) (hb : b ∈ u) : (rankIn u a = rankIn u b ↔ a = b) := by
  constructor
  · intro h
    rcases lt_trichotomy a b with h' | h' | h'
    · have := (rankIn_lt_iff hp ha hb).mpr h'
      omega
    · exact h'
    · have := (rankIn_lt_iff hp hb ha).mpr h'
      omega
  · intro h; rw [h]

/-! ### Split theorems -/

theorem split_laue_ok_of_disjoint (inp : Inputs) (t : List Bool)
    (h : ∀ g, g ∈ boolSlice (getHarmonicId inp) t →
      g ∉ boolSlice (getHarmonicId inp) (negMask t)) :
    split_laue_data_by_mask inp t =
      Except.ok (splitPart inp (negMask t), splitPart inp t) := by
  unfold split_laue_data_by_mask
  have hfil : (sortedUnique (boolSlice (getHarmonicId inp) t)).filter
      (fun g => decide (g ∈ boolSlice (getHarmonicId inp) (negMask t))) = [] := by
    refine List.filter_eq_nil_iff.mpr (fun g hg => ?_)
    simpa using h g (mem_sortedUnique.mp hg)
  simp [hfil]

/-- C6: `split_laue_data_by_mask` raises `ValueError` exactly when some
harmonic/observation group id occurs among the rows selected by the mask and
also among the rows selected by its negation; and when it raises, the `Except`
result carries no train/test partition. -/
theorem split_laue_raises_iff (inp : Inputs) (test_idx : List Bool) :
    (∃ e, split_laue_data_by_mask inp test_idx = Except.error e) ↔
    ∃ g, g ∈ boolSlice (getHarmonicId inp) test_idx ∧
         g ∈ boolSlice (getHarmonicId inp) (negMask test_idx) := by
  constructor
  · intro ⟨e, he⟩
    unfold split_laue_data_by_mask at he
    by_cases hc : 0 < ((sortedUnique (boolSlice (getHarmonicId inp) test_idx)).filter
        (fun g => decide (g ∈ boolSlice (getHarmonicId inp) (negMask test_idx)))).length
    · obtain ⟨g, hg⟩ := List.exists_mem_of_length_pos hc
      rcases List.mem_filter.mp hg with ⟨hg1, hg2⟩
      exact ⟨g, mem_sortedUnique.mp hg1, of_decide_eq_true hg2⟩
    · rw [if_neg hc] at he
      simp at he
  · intro ⟨g, hg1, hg2⟩
    have hc : 0 < ((sortedUnique (boolSlice (getHarmonicId inp) test_idx)).filter
        (fun g => decide (g ∈ boolSlice (getHarmonicId inp) (negMask test_idx)))).length :=
      List.length_pos_of_mem
        (List.mem_filter.mpr ⟨mem_sortedUnique.mpr hg1, decide_eq_true hg2⟩)
    refine ⟨"ValueError: test_idx splits harmonic observations", ?_⟩
    unfold split_laue_data_by_mask
    rw [if_pos hc]

/-- Disjointness of the two sides of a mask gathered from a per-group vector:
a group id selected by `l.map f` cannot also be selected by its negation. -/
theorem gathered_mask_disjoint (f : ℕ → Bool) (l : List ℕ) :
    ∀ g, g ∈ boolSlice l (l.map f) → g ∉ boolSlice l (negMask (l.map f)) := by
  intro g h1 h2
  have e1 := mem_boolSlice_map f l g h1
  rw [negMask_map] at h2
  have e2 := mem_boolSlice_map (fun x => !(f x)) l g h2
  simp [e1] at e2

/-- C7: for Laue inputs, `split_data_by_refl` draws the mask per group and
gathers it along the harmonic id column, so the split always succeeds and the
set of original harmonic ids landing in the test partition is disjoint from
the set landing in the train partition. -/
theorem split_data_by_refl_laue_groups_disjoint (inp : Inputs) (r : List Bool)
    (rowMask : List Bool) (hlaue : isLaue inp = true) :
    (∃ pr, split_data_by_refl inp r rowMask = Except.ok pr) ∧
    ∀ g, g ∈ boolSlice (getHarmonicId inp)
            ((getHarmonicId inp).map (fun x => r.getD x false)) →
      g ∉ boolSlice (getHarmonicId inp)
            (negMask ((getHarmonicId inp).map (fun x => r.getD x false))) := by
  have hdisj := gathered_mask_disjoint (fun x => r.getD x false) (getHarmonicId inp)
  constructor
  · have hok : split_data_by_refl inp r rowMask =
        Except.ok
          (splitPart inp (negMask ((getHarmonicId inp).map (fun x => r.getD x false))),
           splitPart inp ((getHarmonicId inp).map (fun x => r.getD x false))) := by
      unfold split_data_by_refl
      rw [if_pos (by rw [hlaue])]
      exact split_laue_ok_of_disjoint inp _ hdisj
    exact ⟨_, hok⟩
  · exact hdisj

/-- Witness for `split_data_by_refl_laue_groups_disjoint` on a two-observation
Laue input with three harmonics. -/
theorem split_data_by_refl_laue_groups_disjoint_witness :
    (isLaue [("harmonic_id", Col.ints [0, 0, 1]),
             ("intensities", Col.mat [[7], [8]])] = true) ∧
    ((∃ pr, split_data_by_refl
        [("harmonic_id", Col.ints [0, 0, 1]), ("intensities", Col.mat [[7], [8]])]
        [true, false] [] = Except.ok pr) ∧
    ∀ g, g ∈ boolSlice
          (getHarmonicId [("harmonic_id", Col.ints [0, 0, 1]),
                          ("intensities", Col.mat [[7], [8]])])
          ((getHarmonicId [("harmonic_id", Col.ints [0, 0, 1]),
                           ("intensities", Col.mat [[7], [8]])]).map
            (fun x => [true, false].getD x false)) →
      g ∉ boolSlice
          (getHarmonicId [("harmonic_id", Col.ints [0, 0, 1]),
                          ("intensities", Col.mat [[7], [8]])])
          (negMask ((getHarmonicId [("harmonic_id", Col.ints [0, 0, 1]),
                                    ("intensities", Col.mat [[7], [8]])]).map
            (fun x => [true, false].getD x false)))) :=
  ⟨rfl, split_data_by_refl_laue_groups_disjoint
    [("harmonic_id", Col.ints [0, 0, 1]), ("intensities", Col.mat [[7], [8]])]
    [true, false] [] rfl⟩

theorem fixMask_has_false_true (r : List Bool) (h2 : 2 ≤ r.length) :
    (∃ j, j < r.length ∧ (fixMask r).getD j false = false) ∧
    (∃ j, j < r.length ∧ (fixMask r).getD j false = true) := by
  have h0 : 0 < r.length := by omega
  have h1 : 1 < r.length := by omega
  by_cases ht : true ∈ r
  · by_cases hf : false ∈ r
    · have hfix : fixMask r = r := by
        unfold fixMask
        rw [if_neg (not_not_intro ht), if_neg (not_not_intro hf)]
      rw [hfix]
      exact ⟨mem_getD false hf, mem_getD false ht⟩
    · have hfix : fixMask r = r.set 0 false := by
        unfold fixMask
        rw [if_neg (not_not_intro ht), if_pos hf]
      rw [hfix]
      constructor
      · refine ⟨0, h0, ?_⟩
        rw [List.getD_eq_getElem _ _ (by simpa using h0), List.getElem_set_self]
      · refine ⟨1, h1, ?_⟩
        rw [List.getD_eq_getElem _ _ (by simpa using h1),
          List.getElem_set_ne (by norm_num)]
        cases hb : r[1] with
        | false => exact absurd (hb ▸ List.getElem_mem h1) hf
        | true => rfl
  · have hfix : fixMask r = r.set 0 true := by
      unfold fixMask
      rw [if_pos ht]
    rw [hfix]
    constructor
    · refine ⟨1, h1, ?_⟩
      rw [List.getD_eq_getElem _ _ (by simpa using h1),
        List.getElem_set_ne (by norm_num)]
      cases hb : r[1] with
      | false => rfl
      | true => exact absurd (hb ▸ List.getElem_mem h1) ht
    · refine ⟨0, h0, ?_⟩
      rw [List.getD_eq_getElem _ _ (by simpa using h0), List.getElem_set_self]

/-- Index characterization of boolean-mask selection: an element is selected
exactly when some in-bounds row holds it with a true mask entry. -/
theorem mem_boolSlice_iff {α : Type} (d : α) :
    ∀ (v : List α) (idx : List Bool) (g : α),
      (g ∈ boolSlice v idx ↔
        ∃ i, i < v.length ∧ i < idx.length ∧ v.getD i d = g ∧ idx.getD i false = true) := by
  intro v
  induction v with
  | nil => intro idx g; simp [boolSlice]
  | cons x xs ih =>
    intro idx g
    cases idx with
    | nil => simp [boolSlice]
    | cons b bs =>
      rw [boolSlice_cons]
      cases b with
      | true =>
        rw [if_pos rfl]
        constructor
        · intro h
          rcases List.mem_cons.mp h with h' | h'
          · exact ⟨0, Nat.succ_pos _, Nat.succ_pos _, h'.symm, rfl⟩
          · obtain ⟨i, h1, h2, h3, h4⟩ := (ih bs g).mp h'
            exact ⟨i + 1, Nat.succ_lt_succ h1, Nat.succ_lt_succ h2, h3, h4⟩
        · rintro ⟨i, h1, h2, h3, h4⟩
          cases i with
          | zero => exact List.mem_cons.mpr (Or.inl h3.symm)
          | succ j =>
            exact List.mem_cons.mpr (Or.inr ((ih bs g).mpr
              ⟨j, Nat.lt_of_succ_lt_succ h1, Nat.lt_of_succ_lt_succ h2, h3, h4⟩))
      | false =>
        rw [if_neg (by simp)]
        constructor
        · intro h
          obtain ⟨i, h1, h2, h3, h4⟩ := (ih bs g).mp h
          exact ⟨i + 1, Nat.succ_lt_succ h1, Nat.succ_lt_succ h2, h3, h4⟩
        · rintro ⟨i, h1, h2, h3, h4⟩
          cases i with
          | zero => exact absurd h4 (by simp)
          | succ j =>
            exact (ih bs g).mpr
              ⟨j, Nat.lt_of_succ_lt_succ h1, Nat.lt_of_succ_lt_succ h2, h3, h4⟩

/-- C8 counterexample, two failing inputs.  (1) A dataset whose observations
all belong to one single image: the edge-case fix turns the whole 1-entry mask
off and the test partition comes back empty, containing no image.  (2) A
dataset with TWO distinct images, 0 and 2, whose id range has a gap: with the
draw `[true, false, true]` the edge-case guard is inactive (the absent id 1's
slot supplies the `False in test_idx` it checks for), both images are gathered
into the test side, and the train partition comes back empty — refuting the
claim even for the two-image case when the present ids are not contiguous. -/
theorem split_data_by_image_single_image_empty_test :
    (split_data_by_image
        [("image_id", Col.ints [0, 0]), ("intensities", Col.mat [[3], [4]])] [true] =
      Except.ok
        ([("image_id", Col.ints [0, 0]), ("intensities", Col.mat [[3], [4]])],
         [("image_id", Col.ints []), ("intensities", Col.mat [])]) ∧
    getImageId [("image_id", Col.ints ([] : List ℕ)),
                ("intensities", Col.mat ([] : List (List ℤ)))] = [] ∧
    getImageId [("image_id", Col.ints [0, 0]), ("intensities", Col.mat [[3], [4]])] ≠ []) ∧
    (split_data_by_image
        [("image_id", Col.ints [0, 2]), ("intensities", Col.mat [[3], [4]])]
        [true, false, true] =
      Except.ok
        ([("image_id", Col.ints []), ("intensities", Col.mat [])],
         [("image_id", Col.ints [0, 2]), ("intensities", Col.mat [[3], [4]])]) ∧
    getImageId [("image_id", Col.ints [0, 2]), ("intensities", Col.mat [[3], [4]])] = [0, 2] ∧
    (0 : ℕ) ≠ 2) := by
  exact ⟨⟨rfl, rfl, by decide⟩, ⟨rfl, rfl, by decide⟩⟩

/-- C8 (amended): for every input — mono or Laue — whose image ids cover 0..m
contiguously with m at least 1 (at least two distinct images, every id up to
the maximum present; forced by the gap counterexample), and which, when Laue,
satisfies the repository's harmonic-group invariant that rows sharing a
harmonic group id lie in the same image, `split_data_by_image` succeeds and
there is a whole image none of whose rows is selected into the test partition
(it lands wholly in train) and a whole image none of whose rows is selected
into the train partition (it lands wholly in test).  With exactly one image
this fails: one partition is empty. -/
theorem split_data_by_image_reserves_images (inp : Inputs) (r : List Bool) (m : ℕ)
    (hm : 1 ≤ m) (hr : r.length = m + 1)
    (hall : ∀ g, g ≤ m → g ∈ getImageId inp)
    (hinv : isLaue inp = true →
      ∀ i, i < (getHarmonicId inp).length → ∀ j, j < (getHarmonicId inp).length →
        (getHarmonicId inp).getD i 0 = (getHarmonicId inp).getD j 0 →
        (getImageId inp).getD i 0 = (getImageId inp).getD j 0) :
    ∃ tr te, split_data_by_image inp r = Except.ok (tr, te) ∧
      (∃ g, g ∈ getImageId inp ∧
        g ∉ boolSlice (getImageId inp)
          ((getImageId inp).map (fun x => (fixMask r).getD x false))) ∧
      (∃ g', g' ∈ getImageId inp ∧
        g' ∉ boolSlice (getImageId inp)
          (negMask ((getImageId inp).map (fun x => (fixMask r).getD x false)))) := by
  have h2 : 2 ≤ r.length := by omega
  obtain ⟨⟨j0, hj0, hv0⟩, ⟨j1, hj1, hv1⟩⟩ := fixMask_has_false_true r h2
  have hres1 : ∃ g, g ∈ getImageId inp ∧
      g ∉ boolSlice (getImageId inp)
        ((getImageId inp).map (fun x => (fixMask r).getD x false)) := by
    refine ⟨j0, hall j0 (by omega), fun hmem => ?_⟩
    have hval : (fixMask r).getD j0 false = true :=
      mem_boolSlice_map (fun x => (fixMask r).getD x false) (getImageId inp) j0 hmem
    rw [hv0] at hval
    cases hval
  have hres2 : ∃ g', g' ∈ getImageId inp ∧
      g' ∉ boolSlice (getImageId inp)
        (negMask ((getImageId inp).map (fun x => (fixMask r).getD x false))) := by
    refine ⟨j1, hall j1 (by omega), fun hmem => ?_⟩
    rw [negMask_map] at hmem
    have hval : (!(fixMask r).getD j1 false) = true :=
      mem_boolSlice_map (fun x => !(fixMask r).getD x false) (getImageId inp) j1 hmem
    rw [hv1] at hval
    simp at hval
  cases hb : isLaue inp with
  | false =>
    refine ⟨(split_mono_data_by_mask inp
              ((getImageId inp).map (fun x => (fixMask r).getD x false))).1,
            (split_mono_data_by_mask inp
              ((getImageId inp).map (fun x => (fixMask r).getD x false))).2,
            ?_, hres1, hres2⟩
    unfold split_data_by_image
    simp [hb]
  | true =>
    have hgrp := hinv hb
    have hdisj : ∀ g, g ∈ boolSlice (getHarmonicId inp)
          ((getImageId inp).map (fun x => (fixMask r).getD x false)) →
        g ∉ boolSlice (getHarmonicId inp)
          (negMask ((getImageId inp).map (fun x => (fixMask r).getD x false))) := by
      intro g hg1 hg2
      obtain ⟨i, hi1, hi2, hi3, hi4⟩ := (mem_boolSlice_iff 0 (getHarmonicId inp)
        ((getImageId inp).map (fun x => (fixMask r).getD x false)) g).mp hg1
      obtain ⟨j, hj1', hj2', hj3', hj4'⟩ := (mem_boolSlice_iff 0 (getHarmonicId inp)
        (negMask ((getImageId inp).map (fun x => (fixMask r).getD x false))) g).mp hg2
      rw [List.length_map] at hi2
      rw [negMask, List.length_map, List.length_map] at hj2'
      have hti : ((getImageId inp).map (fun x => (fixMask r).getD x false)).getD i false =
          (fixMask r).getD ((getImageId inp).getD i 0) false :=
        map_getD (fun x => (fixMask r).getD x false) (getImageId inp) i false 0 hi2
      have htj : (negMask ((getImageId inp).map
            (fun x => (fixMask r).getD x false))).getD j false =
          !((fixMask r).getD ((getImageId inp).getD j 0) false) := by
        unfold negMask
        rw [map_getD (fun b => !b) _ j false false (by rw [List.length_map]; exact hj2')]
        rw [map_getD (fun x => (fixMask r).getD x false) (getImageId inp) j false 0 hj2']
      have hiid : (getImageId inp).getD i 0 = (getImageId inp).getD j 0 :=
        hgrp i hi1 j hj1' (by rw [hi3, hj3'])
      rw [hti, hiid] at hi4
      rw [htj, hi4] at hj4'
      simp at hj4'
    refine ⟨splitPart inp
              (negMask ((getImageId inp).map (fun x => (fixMask r).getD x false))),
            splitPart inp ((getImageId inp).map (fun x => (fixMask r).getD x false)),
            ?_, hres1, hres2⟩
    simp only [split_data_by_image]
    rw [if_pos (by rw [hb])]
    exact split_laue_ok_of_disjoint inp _ hdisj

/-- A concrete Laue inputs tuple with an image id column: harmonic group 0 in
image 0, harmonic group 1 (two rows) in image 1, respecting the
harmonic-group/image invariant. -/
def wLaueImgInp : Inputs :=
  [("harmonic_id", Col.ints [0, 1, 1]),
   ("image_id", Col.ints [0, 1, 1]),
   ("intensities", Col.mat [[7], [8]]),
   ("uncertainties", Col.mat [[1], [2]])]

/-- Witness for `split_data_by_image_reserves_images` on the two-image Laue
input `wLaueImgInp` with draw vector `[true, true]`. -/
theorem split_data_by_image_reserves_images_witness :
    (1 ≤ 1) ∧ (([true, true] : List Bool).length = 1 + 1) ∧
    (∀ g, g ≤ 1 → g ∈ getImageId wLaueImgInp) ∧
    (isLaue wLaueImgInp = true →
      ∀ i, i < (getHarmonicId wLaueImgInp).length →
        ∀ j, j < (getHarmonicId wLaueImgInp).length →
          (getHarmonicId wLaueImgInp).getD i 0 = (getHarmonicId wLaueImgInp).getD j 0 →
          (getImageId wLaueImgInp).getD i 0 = (getImageId wLaueImgInp).getD j 0) ∧
    (∃ tr te, split_data_by_image wLaueImgInp [true, true] = Except.ok (tr, te) ∧
      (∃ g, g ∈ getImageId wLaueImgInp ∧
        g ∉ boolSlice (getImageId wLaueImgInp)
          ((getImageId wLaueImgInp).map (fun x => (fixMask [true, true]).getD x false))) ∧
      (∃ g', g' ∈ getImageId wLaueImgInp ∧
        g' ∉ boolSlice (getImageId wLaueImgInp)
          (negMask ((getImageId wLaueImgInp).map
            (fun x => (fixMask [true, true]).getD x false))))) :=
  ⟨by norm_num, rfl, by decide, by decide,
    split_data_by_image_reserves_images wLaueImgInp [true, true] 1
      (by norm_num) rfl (by decide) (by decide)⟩

/-- C10: structure of the partitions returned by `split_laue_data_by_mask`
for an accepted mask.  The train/test partitions are the inner `split` applied
to the negated and to the given mask; and for either mask `m` (with `sel` the
retained original group ids, `uni` their sorted unique list and `inv` the new
ids): the harmonic_id entry is relabeled to `inv`, where new ids agree exactly
on rows sharing the original id and preserve the original order, and the new
ids are exactly the consecutive integers below `uni.length` starting at 0; the
intensities (and identically the uncertainties) entry keeps one row per
retained group (`v[uni]`) padded with constant-1 rows up to the partition's
number of harmonic rows; every other entry is sliced row-wise by the mask. -/
theorem split_laue_group_reindex_and_pad (inp : Inputs) (t : List Bool) (tr te : Inputs)
    (hok : split_laue_data_by_mask inp t = Except.ok (tr, te)) :
    tr = splitPart inp (negMask t) ∧ te = splitPart inp t ∧
    ∀ (m : List Bool) (sel uni inv : List ℕ),
      sel = boolSlice (getHarmonicId inp) m →
      uni = sortedUnique sel →
      inv = sel.map (rankIn uni) →
      ((∀ c, splitEntry (getHarmonicId inp) m "harmonic_id" c = Col.ints inv) ∧
       (∀ i j, i < sel.length → j < sel.length →
         ((inv.getD i 0 = inv.getD j 0 ↔ sel.getD i 0 = sel.getD j 0) ∧
          (inv.getD i 0 < inv.getD j 0 ↔ sel.getD i 0 < sel.getD j 0))) ∧
       (∀ k, k ∈ inv ↔ k < uni.length) ∧
       (∀ v : List (List ℤ),
         splitEntry (getHarmonicId inp) m "intensities" (Col.mat v) =
           Col.mat (uni.map (fun g => v.getD g []) ++
             List.replicate (sel.length - uni.length)
               (List.replicate (v.headD []).length 1)) ∧
         (uni.map (fun g => v.getD g []) ++
             List.replicate (sel.length - uni.length)
               (List.replicate (v.headD []).length 1)).length = sel.length ∧
         splitEntry (getHarmonicId inp) m "uncertainties" (Col.mat v) =
           splitEntry (getHarmonicId inp) m "intensities" (Col.mat v)) ∧
       (∀ (name : String) (c : Col), name ≠ "intensities" → name ≠ "uncertainties" →
         name ≠ "harmonic_id" →
         splitEntry (getHarmonicId inp) m name c = colSlice c m)) := by
  have hparts : splitPart inp (negMask t) = tr ∧ splitPart inp t = te := by
    unfold split_laue_data_by_mask at hok
    by_cases hc : 0 < ((sortedUnique (boolSlice (getHarmonicId inp) t)).filter
        (fun g => decide (g ∈ boolSlice (getHarmonicId inp) (negMask t)))).length
    · rw [if_pos hc] at hok
      exact absurd hok (by simp)
    · rw [if_neg hc] at hok
      simpa using hok
  refine ⟨hparts.1.symm, hparts.2.symm, ?_⟩
  intro m sel uni inv hsel huni hinv
  have hpw : uni.Pairwise (· < ·) := by rw [huni]; exact pairwise_sortedUnique sel
  have hnd : uni.Nodup := by rw [huni]; exact nodup_sortedUnique sel
  have hsu : ∀ x, x ∈ sel → x ∈ uni := by
    intro x hx
    rw [huni]
    exact mem_sortedUnique.mpr hx
  have hinvD : ∀ i, i < sel.length → inv.getD i 0 = rankIn uni (sel.getD i 0) := by
    intro i hi
    rw [hinv]
    exact map_getD (rankIn uni) sel i 0 0 hi
  refine ⟨?_, ?_, ?_, ?_, ?_⟩
  · intro c
    simp only [splitEntry]
    rw [if_pos trivial, ← hsel, ← huni, ← hinv, if_neg (by decide)]
  · intro i j hi hj
    have mi : sel.getD i 0 ∈ uni := hsu _ (getD_mem 0 hi)
    have mj : sel.getD j 0 ∈ uni := hsu _ (getD_mem 0 hj)
    rw [hinvD i hi, hinvD j hj]
    exact ⟨rankIn_eq_iff hpw mi mj, rankIn_lt_iff hpw mi mj⟩
  · intro k
    constructor
    · intro hk
      rw [hinv] at hk
      obtain ⟨g, hg, hk'⟩ := List.mem_map.mp hk
      rw [← hk']
      exact rankIn_lt_length (hsu g hg)
    · intro hk
      have hgu : uni.getD k 0 ∈ uni := getD_mem 0 hk
      have hgs : uni.getD k 0 ∈ sel := by
        refine mem_sortedUnique.mp ?_
        rw [← huni]
        exact hgu
      have hrk : rankIn uni (uni.getD k 0) = k := rankIn_getD hnd k hk
      rw [hinv]
      exact List.mem_map.mpr ⟨uni.getD k 0, hgs, hrk⟩
  · intro v
    have hle : uni.length ≤ sel.length := by
      rw [huni]
      exact length_sortedUnique sel
    have hlen : (uni.map (fun g => v.getD g []) ++
        List.replicate (sel.length - uni.length)
          (List.replicate (v.headD []).length 1)).length = sel.length := by
      rw [List.length_append, List.length_map, List.length_replicate]
      omega
    refine ⟨?_, hlen, ?_⟩
    · simp only [splitEntry]
      rw [if_pos (Or.inl trivial), ← hsel, ← huni, ← hinv]
      have hinvlen : inv.length = sel.length := by rw [hinv, List.length_map]
      rw [hinvlen]
    · simp only [splitEntry]
      rw [if_pos (Or.inr trivial), if_pos (Or.inl trivial)]
  · intro name c h1 h2 h3
    simp only [splitEntry]
    rw [if_neg (fun h => h.elim h1 h2), if_neg h3]

/-- A small concrete Laue inputs tuple: three harmonics over two observations
plus a generic metadata entry, used to witness the split structure theorem. -/
def wInp : Inputs :=
  [("harmonic_id", Col.ints [0, 1, 1]),
   ("intensities", Col.mat [[7], [8]]),
   ("uncertainties", Col.mat [[1], [2]]),
   ("metadata", Col.mat [[9], [10], [11]])]

/-- Witness for `split_laue_group_reindex_and_pad` on `wInp` with the valid mask
`[false, true, true]` (group 0 to train, group 1 to test). -/
theorem split_laue_group_reindex_and_pad_witness :
    (split_laue_data_by_mask wInp [false, true, true] =
      Except.ok (splitPart wInp (negMask [false, true, true]),
                 splitPart wInp [false, true, true])) ∧
    (splitPart wInp (negMask [false, true, true]) =
        splitPart wInp (negMask [false, true, true]) ∧
     splitPart wInp [false, true, true] = splitPart wInp [false, true, true] ∧
     ∀ (m : List Bool) (sel uni inv : List ℕ),
      sel = boolSlice (getHarmonicId wInp) m →
      uni = sortedUnique sel →
      inv = sel.map (rankIn uni) →
      ((∀ c, splitEntry (getHarmonicId wInp) m "harmonic_id" c = Col.ints inv) ∧
       (∀ i j, i < sel.length → j < sel.length →
         ((inv.getD i 0 = inv.getD j 0 ↔ sel.getD i 0 = sel.getD j 0) ∧
          (inv.getD i 0 < inv.getD j 0 ↔ sel.getD i 0 < sel.getD j 0))) ∧
       (∀ k, k ∈ inv ↔ k < uni.length) ∧
       (∀ v : List (List ℤ),
         splitEntry (getHarmonicId wInp) m "intensities" (Col.mat v) =
           Col.mat (uni.map (fun g => v.getD g []) ++
             List.replicate (sel.length - uni.length)
               (List.replicate (v.headD []).length 1)) ∧
         (uni.map (fun g => v.getD g []) ++
             List.replicate (sel.length - uni.length)
               (List.replicate (v.headD []).length 1)).length = sel.length ∧
         splitEntry (getHarmonicId wInp) m "uncertainties" (Col.mat v) =
           splitEntry (getHarmonicId wInp) m "intensities" (Col.mat v)) ∧
       (∀ (name : String) (c : Col), name ≠ "intensities" → name ≠ "uncertainties" →
         name ≠ "harmonic_id" →
         splitEntry (getHarmonicId wInp) m name c = colSlice c m))) :=
  ⟨rfl,
    split_laue_group_reindex_and_pad wInp [false, true, true]
      (splitPart wInp (negMask [false, true, true]))
      (splitPart wInp [false, true, true]) rfl⟩

/-! ## Reciprocal-space index — careless/io/asu.py

A `ReciprocalASU` assigns `id = np.arange(len(h))` to its asymmetric-unit
Miller indices in their generated order (asu.py lines 22-38).  The collection
concatenates the per-asu tables, offsetting each table's ids by the number of
rows already collected (`tab['id'] += len(self.lookup_table)`, lines 86-97),
and serves lookups by composite key `(asu_id, H, K, L)` or by id. -/

/-- A Miller index (H, K, L). -/
abbrev Miller := ℤ × ℤ × ℤ

/-- One `ReciprocalASU`, reduced to the data these claims need: its
asymmetric-unit Miller indices `Hall` in generated order. -/
structure ReciprocalASU where
  Hall : List Miller

/-- One row of the collection's lookup table:
(asu id, Miller index, global reflection id). -/
abbrev AsuEntry := ℕ × Miller × ℕ

/-- The rows contributed by one asu: ids count up from the running offset. -/
def asuEntries (a : ℕ) : ℕ → List Miller → List AsuEntry
  | _, [] => []
  | off, h :: t => (a, h, off) :: asuEntries a (off + 1) t

/-- The concatenated lookup table of `ReciprocalASUCollection.__init__`:
blocks in asu order, each block's ids offset by the total length so far. -/
def collectionTable : ℕ → ℕ → List ReciprocalASU → List AsuEntry
  | _, _, [] => []
  | a, off, asu :: rest =>
      asuEntries a off asu.Hall ++ collectionTable (a + 1) (off + asu.Hall.length) rest

/-- `ReciprocalASUCollection`, holding its list of asus. -/
structure ReciprocalASUCollection where
  reciprocal_asus : List ReciprocalASU

/-- The collection's concatenated lookup table. -/
def ReciprocalASUCollection.lookup_table (rac : ReciprocalASUCollection) : List AsuEntry :=
  collectionTable 0 0 rac.reciprocal_asus

/-- asu.py lines 138-153, `to_refl_id(asu_id, H)`: select the row with
composite key `(asu_id, H, K, L)` and return its `id`. -/
def ReciprocalASUCollection.to_refl_id (rac : ReciprocalASUCollection)
    (a : ℕ) (h : Miller) : Option ℕ :=
  (rac.lookup_table.find? (fun e => decide ((e.1, e.2.1) = (a, h)))).map (fun e => e.2.2)

/-- asu.py lines 119-136, `to_asu_id_and_miller_index(refl_id)`: select the
row with the given `id` and return its asu id and Miller index. -/
def ReciprocalASUCollection.to_asu_id_and_miller_index (rac : ReciprocalASUCollection)
    (i : ℕ) : Option (ℕ × Miller) :=
  (rac.lookup_table.find? (fun e => decide (e.2.2 = i))).map (fun e => (e.1, e.2.1))

theorem find?_eq_of_map_nodup {α β : Type} [DecidableEq β] (f : α → β) :
    ∀ (l : List α) (e₀ : α), (l.map f).Nodup → e₀ ∈ l →
      l.find? (fun e => decide (f e = f e₀)) = some e₀ := by
  intro l
  induction l with
  | nil => intro e₀ _ h; simp at h
  | cons x t ih =>
    intro e₀ hnd hmem
    have hnd2 : (f x :: t.map f).Nodup := by rw [← List.map_cons]; exact hnd
    rcases List.nodup_cons.mp hnd2 with ⟨hx, hnd'⟩
    by_cases hfx : f x = f e₀
    · have hex : e₀ = x := by
        rcases List.mem_cons.mp hmem with h | h
        · exact h
        · exact absurd (hfx ▸ List.mem_map_of_mem f h) hx
      rw [List.find?_cons, decide_eq_true hfx, hex]
    · have hmem' : e₀ ∈ t := by
        rcases List.mem_cons.mp hmem with h | h
        · exact absurd (congrArg f h.symm) hfx
        · exact h
      rw [List.find?_cons, decide_eq_false hfx]
      exact ih e₀ hnd' hmem'

theorem asuEntries_map_id (a : ℕ) :
    ∀ (ms : List Miller) (off : ℕ),
      (asuEntries a off ms).map (fun e => e.2.2) = List.range' off ms.length := by
  intro ms
  induction ms with
  | nil => intro off; simp [asuEntries]
  | cons h t ih =>
    intro off
    rw [show (h :: t).length = t.length + 1 from rfl, List.range'_succ]
    simp only [asuEntries, List.map_cons]
    rw [ih (off + 1)]

theorem asuEntries_map_key (a : ℕ) :
    ∀ (ms : List Miller) (off : ℕ),
      (asuEntries a off ms).map (fun e => (e.1, e.2.1)) = ms.map (fun h => (a, h)) := by
  intro ms
  induction ms with
  | nil => intro off; simp [asuEntries]
  | cons h t ih =>
    intro off
    simp only [asuEntries, List.map_cons]
    rw [ih (off + 1)]

theorem collectionTable_map_id :
    ∀ (asus : List ReciprocalASU) (a off : ℕ),
      (collectionTable a off asus).map (fun e => e.2.2) =
        List.range' off ((asus.map (fun s => s.Hall.length)).sum) := by
  intro asus
  induction asus with
  | nil => intro a off; simp [collectionTable]
  | cons s rest ih =>
    intro a off
    simp only [collectionTable, List.map_append, List.map_cons, List.sum_cons]
    rw [asuEntries_map_id, ih (a + 1) (off + s.Hall.length)]
    have := List.range'_append off s.Hall.length ((rest.map (fun s => s.Hall.length)).sum) 1
    simpa [Nat.add_comm] using this

theorem mem_asuEntries_asu_eq (a : ℕ) :
    ∀ (ms : List Miller) (off : ℕ) (e : AsuEntry),
      e ∈ asuEntries a off ms → e.1 = a := by
  intro ms
  induction ms with
  | nil => intro off e h; simp [asuEntries] at h
  | cons m t ih =>
    intro off e h
    rcases List.mem_cons.mp h with h2 | h2
    · rw [h2]
    · exact ih (off + 1) e h2

theorem mem_collectionTable_asu_ge :
    ∀ (asus : List ReciprocalASU) (a off : ℕ) (e : AsuEntry),
      e ∈ collectionTable a off asus → a ≤ e.1 := by
  intro asus
  induction asus with
  | nil => intro a off e h; simp [collectionTable] at h
  | cons s rest ih =>
    intro a off e h
    rcases List.mem_append.mp h with h' | h'
    · rw [mem_asuEntries_asu_eq a s.Hall off e h']
    · exact Nat.le_of_succ_le (ih (a + 1) (off + s.Hall.length) e h')

theorem collectionTable_keys_nodup :
    ∀ (asus : List ReciprocalASU) (a off : ℕ),
      (∀ s ∈ asus, s.Hall.Nodup) →
      ((collectionTable a off asus).map (fun e => (e.1, e.2.1))).Nodup := by
  intro asus
  induction asus with
  | nil => intro a off _; simp [collectionTable]
  | cons s rest ih =>
    intro a off hnd
    simp only [collectionTable, List.map_append]
    rw [List.nodup_append]
    refine ⟨?_, ih (a + 1) (off + s.Hall.length) (fun x hx => hnd x (List.mem_cons_of_mem s hx)), ?_⟩
    · rw [asuEntries_map_key]
      have hinj : Function.Injective (fun h : Miller => (a, h)) := by
        intro h1 h2 e
        exact congrArg Prod.snd e
      exact (hnd s (List.mem_cons_self s rest)).map hinj
    · intro k hk1 hk2
      rw [asuEntries_map_key] at hk1
      obtain ⟨h1, hh1, hkey⟩ := List.mem_map.mp hk1
      obtain ⟨e, he, hkey'⟩ := List.mem_map.mp hk2
      have hge := mem_collectionTable_asu_ge rest (a + 1) (off + s.Hall.length) e he
      have heq : (e.1, e.2.1) = (a, h1) := by rw [hkey', ← hkey]
      have : e.1 = a := congrArg Prod.fst heq
      omega

/-- C9: for a `ReciprocalASUCollection` whose asus each list distinct Miller
indices, (1) the ids of the concatenated lookup table are exactly the
contiguous integers 0..n-1 in table order (ids partitioned per asu and
concatenated in order, so the composite key `(asu id, H, K, L)` maps
bijectively onto 0..n-1); (2) for every row, `to_refl_id` on its composite key
returns its id and `to_asu_id_and_miller_index` on its id returns its
composite key; (3) conversely every valid refl_id round-trips through
`to_asu_id_and_miller_index` and back through `to_refl_id`. -/
theorem asu_collection_bijection (rac : ReciprocalASUCollection)
    (hnd : ∀ s ∈ rac.reciprocal_asus, s.Hall.Nodup) :
    (rac.lookup_table.map (fun e => e.2.2) = List.range rac.lookup_table.length) ∧
    (∀ e ∈ rac.lookup_table,
      rac.to_refl_id e.1 e.2.1 = some e.2.2 ∧
      rac.to_asu_id_and_miller_index e.2.2 = some (e.1, e.2.1)) ∧
    (∀ i, i < rac.lookup_table.length →
      ∃ a h, rac.to_asu_id_and_miller_index i = some (a, h) ∧
             rac.to_refl_id a h = some i) := by
  have hids : rac.lookup_table.map (fun e => e.2.2) =
      List.range' 0 ((rac.reciprocal_asus.map (fun s => s.Hall.length)).sum) :=
    collectionTable_map_id rac.reciprocal_asus 0 0
  have hlen : rac.lookup_table.length =
      (rac.reciprocal_asus.map (fun s => s.Hall.length)).sum := by
    have := congrArg List.length hids
    simpa using this
  have hidsR : rac.lookup_table.map (fun e => e.2.2) =
      List.range rac.lookup_table.length := by
    rw [List.range_eq_range', hlen, hids]
  have hidnd : (rac.lookup_table.map (fun e => e.2.2)).Nodup := by
    rw [hids]
    exact List.nodup_range' _ _
  have hkeynd : (rac.lookup_table.map (fun e => (e.1, e.2.1))).Nodup :=
    collectionTable_keys_nodup rac.reciprocal_asus 0 0 hnd
  have hpair : ∀ e ∈ rac.lookup_table,
      rac.to_refl_id e.1 e.2.1 = some e.2.2 ∧
      rac.to_asu_id_and_miller_index e.2.2 = some (e.1, e.2.1) := by
    intro e he
    constructor
    · unfold ReciprocalASUCollection.to_refl_id
      have hfind : rac.lookup_table.find?
          (fun x => decide ((x.1, x.2.1) = (e.1, e.2.1))) = some e :=
        find?_eq_of_map_nodup (fun x : AsuEntry => (x.1, x.2.1))
          rac.lookup_table e hkeynd he
      rw [hfind]
      rfl
    · unfold ReciprocalASUCollection.to_asu_id_and_miller_index
      have hfind : rac.lookup_table.find? (fun x => decide (x.2.2 = e.2.2)) = some e :=
        find?_eq_of_map_nodup (fun x : AsuEntry => x.2.2) rac.lookup_table e hidnd he
      rw [hfind]
      rfl
  refine ⟨hidsR, hpair, ?_⟩
  intro i hi
  have hmemi : i ∈ rac.lookup_table.map (fun e => e.2.2) := by
    rw [hidsR]
    exact List.mem_range.mpr hi
  obtain ⟨e, he, hei⟩ := List.mem_map.mp hmemi
  obtain ⟨h1, h2⟩ := hpair e he
  exact ⟨e.1, e.2.1, by rw [← hei]; exact h2, by rw [h1, hei]⟩

/-- A concrete two-asu collection (two Miller indices in the first asu, one in
the second) used to witness the bijection theorem. -/
def wAsus : ReciprocalASUCollection :=
  ⟨[⟨[(1, 0, 0), (0, 1, 0)]⟩, ⟨[(0, 0, 1)]⟩]⟩

/-- Witness for `asu_collection_bijection` on `wAsus`. -/
theorem asu_collection_bijection_witness :
    (∀ s ∈ wAsus.reciprocal_asus, s.Hall.Nodup) ∧
    ((wAsus.lookup_table.map (fun e => e.2.2) = List.range wAsus.lookup_table.length) ∧
     (∀ e ∈ wAsus.lookup_table,
       wAsus.to_refl_id e.1 e.2.1 = some e.2.2 ∧
       wAsus.to_asu_id_and_miller_index e.2.2 = some (e.1, e.2.1)) ∧
     (∀ i, i < wAsus.lookup_table.length →
       ∃ a h, wAsus.to_asu_id_and_miller_index i = some (a, h) ∧
              wAsus.to_refl_id a h = some i)) :=
  ⟨by decide, asu_collection_bijection wAsus (by decide)⟩

end Careless
